import Mathlib

/-!
Verification of the `rip` package (parallel chunked stream reading).

The development shallowly embeds `rip.go`:

* byte buffers and streams become `List Nat`;
* the `bufio.Scanner` split function `ScanChunksWithBoundary` becomes a pure
  function from a byte window and an end-of-input flag to a `SplitResult`;
* the scanning loop performed by `bufio.Scanner` inside `ParallelReader.Read`
  (with the scanner buffer capped at `ChunkSize`, as `Read` configures it via
  `scanner.Buffer`) becomes the fuel-indexed loop `runScan`; the fuel is an
  artifact of the embedding: running out of fuel is reported as an error and
  never counts as a clean completion;
* `ReadFixed`'s `io.ReadFull` loop becomes `runFixed`, with the byte source
  modelled as a finite byte list followed by a terminal signal (clean
  end-of-stream or a read fault);
* the buffer pool backed by a buffered channel becomes a functional queue.

Chunks delivered to the worker callback are collected in producer order; the
workers only forward each chunk to the callback, so the list of produced
chunks is exactly the multiset of callback arguments.
-/

namespace Rip

/-- Boolean test that `pat` is an initial segment of `l` (byte-sequence match
at the front, as `bytes.HasPrefix` computes it). -/
def listStartsWith (pat l : List Nat) : Bool :=
  l.take pat.length == pat

/-- Boolean test that `pat` is a final segment of `l`. -/
def listEndsWith (pat l : List Nat) : Bool :=
  l.drop (l.length - pat.length) == pat

/-- Search downward from position `i` for the largest position at which `pat`
occurs in `data`; this is the recursion behind `bytes.LastIndex`. -/
def lastIndexFrom (data pat : List Nat) : Nat → Option Nat
  | 0 => if listStartsWith pat data then some 0 else none
  | i + 1 =>
    if listStartsWith pat (data.drop (i + 1)) then some (i + 1)
    else lastIndexFrom data pat i

/-- Index of the last occurrence of `pat` in `data`, as `bytes.LastIndex`
computes it (`none` for Go's `-1`; an empty `pat` matches at `data.length`). -/
def lastIndex (data pat : List Nat) : Option Nat :=
  lastIndexFrom data pat data.length

/-- Search upward from position `start` for the smallest position at which
`pat` occurs in `data` (the recursion behind `bytes.Index` restricted to
offsets at or beyond `start`). -/
def firstIndexFrom (data pat : List Nat) (start : Nat) : Option Nat :=
  (List.range (data.length + 1)).find?
    (fun i => decide (start ≤ i) && listStartsWith pat (data.drop i))

/-- Outcome of one call to a `bufio.Scanner` split function, restricted to the
shapes the functions of this package produce: request more data
(`advance = 0`, no token), emit a token and advance, or emit a final token via
`bufio.ErrFinalToken`. -/
inductive SplitResult where
  | more : SplitResult
  | emit : Nat → List Nat → SplitResult
  | finalToken : List Nat → SplitResult
deriving DecidableEq, Repr

/-- Way a scan loop can end abnormally. `tooLong` models `bufio.ErrTooLong`
(the scanner buffer, capped at `ChunkSize` by `Read`, filled with no token),
which `Read` turns into a panic; `fuelOut` is an artifact of the fuel-indexed
embedding and never counts as a clean completion. -/
inductive ScanError where
  | tooLong : ScanError
  | fuelOut : ScanError
deriving DecidableEq, Repr

/-- Way the `ReadFixed` loop can end abnormally: a non-end-of-stream read
fault (which the Go code turns into a panic), or embedding fuel exhaustion. -/
inductive FixedError where
  | fault : FixedError
  | fuelOut : FixedError
deriving DecidableEq, Repr

/-- Result of a producer loop: the chunks handed to the worker queue (hence to
the caller's callback) in production order, and how the loop ended
(`err = none` means a clean completion). -/
structure RunResult (ε : Type) where
  chunks : List (List Nat)
  err : Option ε
deriving DecidableEq, Repr

/-- Body of the `for scanner.Scan()` loop in `ParallelReader.Read`: a token is
enqueued only when it is non-empty, and it is copied into a pool buffer of
length `ChunkSize` (`size := copy(buf, token)`), so the chunk the callback
sees is the token truncated to `ChunkSize` bytes. -/
def emitChunk (chunkSize : Nat) (token : List Nat) : List (List Nat) :=
  if token.isEmpty then [] else [token.take chunkSize]

/-- Guard with which `bufio.Scanner.Scan` invokes the split function: the
split function is only called when the buffered window is non-empty or the
reader has already returned an error (end of input). Otherwise the scanner
goes straight to reading more data, which this embedding folds into a
`SplitResult.more` step. -/
def scanStep (split : List Nat → Bool → SplitResult)
    (window : List Nat) (eofSeen : Bool) : SplitResult :=
  if window.isEmpty && !eofSeen then SplitResult.more else split window eofSeen

/-- Scan loop of `bufio.Scanner` as configured by `ParallelReader.Read`:
the buffer holds at most `chunkSize` bytes (`scanner.Buffer(scanBuf,
r.ChunkSize)` with `len(scanBuf) = r.ChunkSize`), a full buffer with no token
is `bufio.ErrTooLong`, and reads from the source (a `strings.Reader`-style
byte list) fill as much of the free buffer space as bytes remain. State:
remaining fuel, the unconsumed buffered window, the unread rest of the input,
and whether the reader has already reported end of input. -/
def runScan (split : List Nat → Bool → SplitResult) (chunkSize : Nat) :
    Nat → List Nat → List Nat → Bool → RunResult ScanError
  | 0, _, _, _ => ⟨[], some ScanError.fuelOut⟩
  | fuel + 1, window, rest, eofSeen =>
    match scanStep split window eofSeen with
    | SplitResult.finalToken token => ⟨emitChunk chunkSize token, none⟩
    | SplitResult.emit advance token =>
      let r := runScan split chunkSize fuel (window.drop advance) rest eofSeen
      ⟨emitChunk chunkSize token ++ r.chunks, r.err⟩
    | SplitResult.more =>
      if eofSeen then ⟨[], none⟩
      else if chunkSize ≤ window.length then ⟨[], some ScanError.tooLong⟩
      else if rest.isEmpty then runScan split chunkSize fuel window rest true
      else runScan split chunkSize fuel
        (window ++ rest.take (chunkSize - window.length))
        (rest.drop (chunkSize - window.length)) eofSeen

/-- Fuel that is ample for a scan of `input`: each loop step either consumes
at least one byte of the unread input, consumes at least one byte of the
window, or is one of the two terminal steps. -/
def scanFuel (input : List Nat) : Nat :=
  2 * input.length + 8

/-- Split function `ParallelReader.ScanChunksWithBoundary` from `rip.go`
(end-only boundary mode): below `ChunkSize` before end of input it requests
more data; otherwise it cuts at the last occurrence of the boundary, requests
more data if none is present before end of input, and at end of input
delivers the remaining window as the final token. -/
def ScanChunksWithBoundary (chunkSize : Nat) (boundary : List Nat)
    (data : List Nat) (atEOF : Bool) : SplitResult :=
  if !atEOF && data.length < chunkSize then SplitResult.more
  else
    match lastIndex data boundary with
    | some idx =>
      SplitResult.emit (idx + boundary.length) (data.take (idx + boundary.length))
    | none =>
      if !atEOF then SplitResult.more
      else SplitResult.finalToken data

/-- End-to-end model of `ParallelReader.Read` over a byte-list source with
the configured `ChunkSize` and `ChunkBoundary`: the chunks handed to the
callback, in production order, and how the scan ended (`err = none` is a
clean return; `some tooLong` is the panic on `scanner.Err()`). -/
def ReadBoundary (chunkSize : Nat) (boundary : List Nat) (input : List Nat) :
    RunResult ScanError :=
  runScan (ScanChunksWithBoundary chunkSize boundary) chunkSize
    (scanFuel input) [] input false

/-- Modelled from the spec: the repository's test suite sets a
`RequireBoundary` field on `ParallelReader` that is absent from the provided
`rip.go`. Per the spec (§4.2 step 4), with `RequireBoundary` true the scanner
behaves like `ScanChunksWithBoundary` except that at end of input with no
boundary found the remainder is discarded (nothing is emitted) instead of
being delivered as a final chunk. -/
def scanChunksRequired (chunkSize : Nat) (boundary : List Nat)
    (data : List Nat) (atEOF : Bool) : SplitResult :=
  if !atEOF && data.length < chunkSize then SplitResult.more
  else
    match lastIndex data boundary with
    | some idx =>
      SplitResult.emit (idx + boundary.length) (data.take (idx + boundary.length))
    | none =>
      if !atEOF then SplitResult.more
      else SplitResult.finalToken []

/-- Modelled from the spec: `ParallelReader.Read` with `RequireBoundary`
set, a configuration the provided `rip.go` does not contain. -/
def ReadBoundaryReq (chunkSize : Nat) (boundary : List Nat)
    (input : List Nat) : RunResult ScanError :=
  runScan (scanChunksRequired chunkSize boundary) chunkSize
    (scanFuel input) [] input false

/-- Modelled from the spec: bracketed boundary mode (`ChunkBoundaryStart`
set), which the repository's test suite exercises but the provided `rip.go`
does not implement. Per the spec (§4.2), a chunk is a complete
`start…end` span: the scanner finds the first occurrence of the start
sequence, then the first occurrence of the end sequence at or after the end
of that start marker, and emits exactly that span, consuming the window
through the end of the span; bytes before the first start sequence and a
trailing start without an end are discarded entirely. -/
def scanChunksBracketed (chunkSize : Nat) (startBnd endBnd : List Nat)
    (data : List Nat) (atEOF : Bool) : SplitResult :=
  if !atEOF && data.length < chunkSize then SplitResult.more
  else
    match firstIndexFrom data startBnd 0 with
    | none =>
      if !atEOF then SplitResult.more else SplitResult.finalToken []
    | some s0 =>
      match firstIndexFrom data endBnd (s0 + startBnd.length) with
      | some e0 =>
        SplitResult.emit (e0 + endBnd.length)
          ((data.take (e0 + endBnd.length)).drop s0)
      | none =>
        if !atEOF then SplitResult.more else SplitResult.finalToken []

/-- Modelled from the spec: `ParallelReader.Read` in bracketed mode. -/
def ReadBracketed (chunkSize : Nat) (startBnd endBnd : List Nat)
    (input : List Nat) : RunResult ScanError :=
  runScan (scanChunksBracketed chunkSize startBnd endBnd) chunkSize
    (scanFuel input) [] input false

/-- Terminal signal of the byte source once its bytes are exhausted: a clean
end of stream, or some other read fault. -/
inductive Terminal where
  | eof : Terminal
  | fault : Terminal
deriving DecidableEq, Repr

/-- Loop of `ParallelReader.ReadFixed` from `rip.go`: `io.ReadFull` fills a
pool buffer of length `ChunkSize`; a full read enqueues the chunk and
continues; reaching the source's end mid-buffer (`io.ErrUnexpectedEOF`)
enqueues the short chunk and stops cleanly; end of stream with zero bytes
(`io.EOF`) stops cleanly with no chunk; any other read fault panics without
enqueueing. -/
def runFixed (chunkSize : Nat) :
    Nat → List Nat → Terminal → RunResult FixedError
  | 0, _, _ => ⟨[], some FixedError.fuelOut⟩
  | fuel + 1, remaining, term =>
    if chunkSize ≤ remaining.length then
      let r := runFixed chunkSize fuel (remaining.drop chunkSize) term
      ⟨remaining.take chunkSize :: r.chunks, r.err⟩
    else
      match term with
      | Terminal.eof =>
        if remaining.isEmpty then ⟨[], none⟩ else ⟨[remaining], none⟩
      | Terminal.fault => ⟨[], some FixedError.fault⟩

/-- End-to-end model of `ParallelReader.ReadFixed` over a byte-list source
followed by a terminal signal. -/
def ReadFixedModel (chunkSize : Nat) (input : List Nat) (term : Terminal) :
    RunResult FixedError :=
  runFixed chunkSize (input.length + 1) input term

/-- Buffer pool from `rip.go`, backed by a buffered channel of capacity
`max`: the queue holds the pooled buffers in FIFO order. -/
structure Pool where
  queue : List (List Nat)
  capacity : Nat
  bufferSize : Nat
deriving DecidableEq, Repr

/-- Constructor `NewPool` from `rip.go`: an empty channel of capacity `max`
for buffers of length `bufferSize`. -/
def NewPool (max bufferSize : Nat) : Pool :=
  { queue := [], capacity := max, bufferSize := bufferSize }

/-- Method `Pool.Borrow` from `rip.go`: a non-blocking channel receive that
takes the oldest pooled buffer, or allocates a fresh zeroed buffer of length
`bufferSize` when the pool is empty. The `select`/`default` shape makes the
operation total: it never blocks and never fails. -/
def Pool.Borrow (p : Pool) : List Nat × Pool :=
  match p.queue with
  | [] => (List.replicate p.bufferSize 0, p)
  | b :: rest => (b, { p with queue := rest })

/-- Method `Pool.Return` from `rip.go`: a non-blocking channel send that
stores the buffer when the channel has room and silently drops it when the
channel is full. The `select`/`default` shape makes the operation total: it
never blocks and never fails. -/
def Pool.Return (p : Pool) (c : List Nat) : Pool :=
  if p.queue.length < p.capacity then { p with queue := p.queue ++ [c] } else p

/-- Configuration and owned state of `ParallelReader` from `rip.go`.
`chunksCap` records the capacity of the `chunks` channel, fixed when the
channel is created. -/
structure ParallelReader where
  Concurrency : Nat
  ChunkSize : Nat
  ChunkBoundary : List Nat
  chunksCap : Nat
deriving DecidableEq, Repr

/-- Constructor `NewParallelReader` from `rip.go`, with the machine's
`runtime.NumCPU()` passed explicitly: it sets `Concurrency` to the CPU count,
the boundary to `"\n"`, `ChunkSize` to 64 KiB, and creates the chunk channel
with capacity equal to the `Concurrency` value at this moment. -/
def NewParallelReader (numCPU : Nat) : ParallelReader :=
  { Concurrency := numCPU
    ChunkBoundary := [10]
    ChunkSize := 65536
    chunksCap := numCPU }

/-- Assignment `r.Concurrency = n` performed by a caller after construction
(as the README's own usage example does). The chunk channel is not remade. -/
def withConcurrency (r : ParallelReader) (n : Nat) : ParallelReader :=
  { r with Concurrency := n }

/-- Capacity of the pending-chunk queue that `Read`/`ReadFixed` use: both
send on the `r.chunks` channel made in `NewParallelReader` and never remake
it, so its capacity is `chunksCap`. -/
def readQueueCapacity (r : ParallelReader) : Nat :=
  r.chunksCap

/-- Pool that `Read`/`ReadFixed` create on entry:
`NewPool(r.Concurrency, r.ChunkSize)` with the field values current at the
call. -/
def readPool (r : ParallelReader) : Pool :=
  NewPool r.Concurrency r.ChunkSize

/-- Byte sequence of the test boundary `"|SPLIT|"`. -/
def splitBoundaryBytes : List Nat := [124, 83, 80, 76, 73, 84, 124]

/-- Byte sequence of the scenario input
`"abcdefg|SPLIT|hijklmnop|SPLIT|hello"`. -/
def c6Input : List Nat :=
  [97, 98, 99, 100, 101, 102, 103] ++ splitBoundaryBytes ++
    [104, 105, 106, 107, 108, 109, 110, 111, 112] ++ splitBoundaryBytes ++
    [104, 101, 108, 108, 111]

/-- Byte sequence of the chunk `"abcdefg|SPLIT|hijklmnop|SPLIT|"`. -/
def c6FirstChunk : List Nat :=
  [97, 98, 99, 100, 101, 102, 103] ++ splitBoundaryBytes ++
    [104, 105, 106, 107, 108, 109, 110, 111, 112] ++ splitBoundaryBytes

/-- Byte sequence of the start marker `"<FOO>"`. -/
def fooStartBytes : List Nat := [60, 70, 79, 79, 62]

/-- Byte sequence of the end marker `"</FOO>"`. -/
def fooEndBytes : List Nat := [60, 47, 70, 79, 79, 62]

/-- Byte sequence of the scenario input `"abcdefg<FOO>hijklmnop</FOO>hello"`. -/
def c7Input : List Nat :=
  [97, 98, 99, 100, 101, 102, 103] ++ fooStartBytes ++
    [104, 105, 106, 107, 108, 109, 110, 111, 112] ++ fooEndBytes ++
    [104, 101, 108, 108, 111]

/-- Byte sequence of the chunk `"<FOO>hijklmnop</FOO>"`. -/
def c7Chunk : List Nat :=
  fooStartBytes ++ [104, 105, 106, 107, 108, 109, 110, 111, 112] ++ fooEndBytes

theorem listStartsWith_iff (pat l : List Nat) :
    listStartsWith pat l = true ↔ l.take pat.length = pat := by
  simp [listStartsWith]

theorem listStartsWith_length {pat l : List Nat}
    (h : listStartsWith pat l = true) : pat.length ≤ l.length := by
  rw [listStartsWith_iff] at h
  have := congrArg List.length h
  simp [List.length_take] at this
  omega

theorem lastIndexFrom_some {data pat : List Nat} :
    ∀ i j, lastIndexFrom data pat i = some j →
      listStartsWith pat (data.drop j) = true ∧ j ≤ i := by
  intro i
  induction i with
  | zero =>
    intro j h
    simp only [lastIndexFrom] at h
    by_cases hp : listStartsWith pat data
    · simp [hp] at h
      subst h
      exact ⟨by simpa using hp, Nat.le_refl 0⟩
    · simp [hp] at h
  | succ i ih =>
    intro j h
    simp only [lastIndexFrom] at h
    by_cases hp : listStartsWith pat (data.drop (i + 1))
    · simp [hp] at h
      subst h
      exact ⟨hp, Nat.le_refl _⟩
    · simp [hp] at h
      rcases ih j h with ⟨h1, h2⟩
      exact ⟨h1, Nat.le_succ_of_le h2⟩

theorem lastIndexFrom_eq_some {data pat : List Nat} :
    ∀ i j, j ≤ i → listStartsWith pat (data.drop j) = true →
      (∀ k, j < k → k ≤ i → listStartsWith pat (data.drop k) = false) →
      lastIndexFrom data pat i = some j := by
  intro i
  induction i with
  | zero =>
    intro j hj hpre _
    interval_cases j
    simp only [lastIndexFrom]
    simp only [List.drop_zero] at hpre
    simp [hpre]
  | succ i ih =>
    intro j hj hpre hmax
    simp only [lastIndexFrom]
    by_cases htop : listStartsWith pat (data.drop (i + 1))
    · have : j = i + 1 := by
        by_contra hne
        have hlt : j < i + 1 := lt_of_le_of_ne hj hne
        have := hmax (i + 1) hlt (Nat.le_refl _)
        rw [this] at htop
        exact Bool.noConfusion htop
      subst this
      simp [htop]
    · have hj' : j ≤ i := by
        rcases Nat.lt_or_ge j (i + 1) with h | h
        · omega
        · have : j = i + 1 := Nat.le_antisymm hj h
          subst this
          exact absurd hpre htop
      rw [if_neg htop]
      exact ih j hj' hpre (fun k hk hk2 => hmax k hk (Nat.le_succ_of_le hk2))

theorem lastIndex_some {data pat : List Nat} {j : Nat}
    (h : lastIndex data pat = some j) :
    listStartsWith pat (data.drop j) = true ∧ j ≤ data.length :=
  lastIndexFrom_some data.length j h

theorem firstIndexFrom_some {data pat : List Nat} {start i : Nat}
    (h : firstIndexFrom data pat start = some i) :
    start ≤ i ∧ listStartsWith pat (data.drop i) = true ∧ i ≤ data.length := by
  have hmem := List.mem_of_find?_eq_some h
  have hpred := List.find?_some h
  simp only [Bool.and_eq_true, decide_eq_true_eq] at hpred
  rw [List.mem_range] at hmem
  exact ⟨hpred.1, hpred.2, by omega⟩

/-- Sanity check: the spec's scenario `"abc\ndef\n"`, `ChunkSize = 6`,
boundary `"\n"` gives exactly the two chunks `"abc\n"` and `"def\n"`. -/
theorem readBoundary_scenario_small :
    ReadBoundary 6 [10] [97, 98, 99, 10, 100, 101, 102, 10] =
      ⟨[[97, 98, 99, 10], [100, 101, 102, 10]], none⟩ := by decide

/-- Sanity check: the spec's scenario `"abc\ndef\n"`, `ChunkSize = 65536`
gives exactly the one chunk `"abc\ndef\n"`. -/
theorem readBoundary_scenario_large :
    ReadBoundary 65536 [10] [97, 98, 99, 10, 100, 101, 102, 10] =
      ⟨[[97, 98, 99, 10, 100, 101, 102, 10]], none⟩ := by decide

/-- Sanity check: a record larger than `ChunkSize` overflows the scanner
buffer and the scan aborts. -/
theorem readBoundary_overflow_check :
    ReadBoundary 3 [10] [97, 97, 97, 97, 10] = ⟨[], some ScanError.tooLong⟩ := by
  decide

/-- Sanity check: fixed-size reading splits a 7-byte input into chunks of
3, 3 and 1 bytes. -/
theorem readFixed_scenario :
    ReadFixedModel 3 [1, 2, 3, 4, 5, 6, 7] Terminal.eof =
      ⟨[[1, 2, 3], [4, 5, 6], [7]], none⟩ := by decide

/-- Sanity check: a read fault aborts fixed-size reading after the complete
chunks. -/
theorem readFixed_fault_scenario :
    ReadFixedModel 3 [1, 2, 3, 4] Terminal.fault =
      ⟨[[1, 2, 3]], some FixedError.fault⟩ := by decide

theorem runScan_succ (split : List Nat → Bool → SplitResult) (chunkSize : Nat)
    (fuel : Nat) (window rest : List Nat) (eofSeen : Bool) :
    runScan split chunkSize (fuel + 1) window rest eofSeen =
      match scanStep split window eofSeen with
      | SplitResult.finalToken token => ⟨emitChunk chunkSize token, none⟩
      | SplitResult.emit advance token =>
        let r := runScan split chunkSize fuel (window.drop advance) rest eofSeen
        ⟨emitChunk chunkSize token ++ r.chunks, r.err⟩
      | SplitResult.more =>
        if eofSeen then ⟨[], none⟩
        else if chunkSize ≤ window.length then ⟨[], some ScanError.tooLong⟩
        else if rest.isEmpty then runScan split chunkSize fuel window rest true
        else runScan split chunkSize fuel
          (window ++ rest.take (chunkSize - window.length))
          (rest.drop (chunkSize - window.length)) eofSeen := rfl

theorem mem_emitChunk {chunkSize : Nat} {token c : List Nat}
    (h : c ∈ emitChunk chunkSize token) :
    c = token.take chunkSize ∧ token.isEmpty = false := by
  unfold emitChunk at h
  by_cases he : token.isEmpty
  · simp [he] at h
  · simp [he] at h
    exact ⟨h, Bool.eq_false_iff.mpr he⟩

theorem scanStep_eq_split {split : List Nat → Bool → SplitResult}
    {window : List Nat} {eofSeen : Bool} {res : SplitResult}
    (h : scanStep split window eofSeen = res) (hne : res ≠ SplitResult.more) :
    split window eofSeen = res := by
  unfold scanStep at h
  by_cases hg : (window.isEmpty && !eofSeen) = true
  · rw [if_pos hg] at h
    exact absurd h.symm hne
  · rwa [if_neg hg] at h

theorem scanStep_true (split : List Nat → Bool → SplitResult)
    (window : List Nat) : scanStep split window true = split window true := by
  simp [scanStep]

/-- Chunks handed to the callback are never longer than `ChunkSize`: every
chunk is copied into a pool buffer of that length. -/
theorem runScan_chunk_length (split : List Nat → Bool → SplitResult)
    (chunkSize : Nat) :
    ∀ fuel window rest eofSeen c,
      c ∈ (runScan split chunkSize fuel window rest eofSeen).chunks →
      c.length ≤ chunkSize := by
  intro fuel
  induction fuel with
  | zero =>
    intro w rest eof c hc
    simp [runScan] at hc
  | succ fuel ih =>
    intro w rest eof c hc
    rw [runScan_succ] at hc
    cases hstep : scanStep split w eof with
    | finalToken token =>
      simp only [hstep] at hc
      rcases mem_emitChunk hc with ⟨rfl, -⟩
      simp [List.length_take]
    | emit advance token =>
      simp only [hstep, List.mem_append] at hc
      rcases hc with hc | hc
      · rcases mem_emitChunk hc with ⟨rfl, -⟩
        simp [List.length_take]
      · exact ih _ _ _ _ hc
    | more =>
      simp only [hstep] at hc
      by_cases heof : eof
      · simp [heof] at hc
      · simp only [heof, if_false] at hc
        by_cases hfull : chunkSize ≤ w.length
        · simp [hfull] at hc
        · simp only [hfull, if_false] at hc
          by_cases hrest : rest.isEmpty
          · simp only [hrest, if_true] at hc
            exact ih _ _ _ _ hc
          · simp only [hrest, if_false] at hc
            exact ih _ _ _ _ hc

/-- Every chunk a scan produces satisfies `P`, provided emitted tokens and
final tokens produced from windows within the buffer bound do (after the
copy-truncation to `chunkSize`). The window-length bound is the scanner's
buffer invariant. -/
theorem runScan_chunks_prop (split : List Nat → Bool → SplitResult)
    (chunkSize : Nat) (P : List Nat → Prop)
    (hemit : ∀ data atEOF advance token, data.length ≤ chunkSize →
      split data atEOF = SplitResult.emit advance token →
      token.isEmpty = false → P (token.take chunkSize))
    (hfin : ∀ data atEOF token, data.length ≤ chunkSize →
      split data atEOF = SplitResult.finalToken token →
      token.isEmpty = false → P (token.take chunkSize)) :
    ∀ fuel window rest eofSeen,
      window.length ≤ chunkSize →
      ∀ c ∈ (runScan split chunkSize fuel window rest eofSeen).chunks, P c := by
  intro fuel
  induction fuel with
  | zero =>
    intro w rest eof _ c hc
    simp [runScan] at hc
  | succ fuel ih =>
    intro w rest eof hw c hc
    rw [runScan_succ] at hc
    cases hstep : scanStep split w eof with
    | finalToken token =>
      simp only [hstep] at hc
      rcases mem_emitChunk hc with ⟨rfl, hne⟩
      exact hfin w eof token hw (scanStep_eq_split hstep (by simp)) hne
    | emit advance token =>
      simp only [hstep, List.mem_append] at hc
      rcases hc with hc | hc
      · rcases mem_emitChunk hc with ⟨rfl, hne⟩
        exact hemit w eof advance token hw (scanStep_eq_split hstep (by simp)) hne
      · refine ih _ _ _ ?_ _ hc
        simp [List.length_drop]
        omega
    | more =>
      simp only [hstep] at hc
      by_cases heof : eof
      · simp [heof] at hc
      · simp only [heof, if_false] at hc
        by_cases hfull : chunkSize ≤ w.length
        · simp [hfull] at hc
        · simp only [hfull, if_false] at hc
          by_cases hrest : rest.isEmpty
          · simp only [hrest, if_true] at hc
            exact ih _ _ _ hw _ hc
          · simp only [hrest, if_false] at hc
            refine ih _ _ _ ?_ _ hc
            simp [List.length_take]
            omega

/-- Every chunk other than the last one satisfies `P`, provided emitted
(non-final) tokens do: only the final token can escape `P`, and it is always
the last chunk produced. -/
theorem runScan_dropLast_prop (split : List Nat → Bool → SplitResult)
    (chunkSize : Nat) (P : List Nat → Prop)
    (hemit : ∀ data atEOF advance token, data.length ≤ chunkSize →
      split data atEOF = SplitResult.emit advance token →
      token.isEmpty = false → P (token.take chunkSize)) :
    ∀ fuel window rest eofSeen,
      window.length ≤ chunkSize →
      ∀ c ∈ ((runScan split chunkSize fuel window rest eofSeen).chunks).dropLast,
        P c := by
  intro fuel
  induction fuel with
  | zero =>
    intro w rest eof _ c hc
    simp [runScan] at hc
  | succ fuel ih =>
    intro w rest eof hw c hc
    rw [runScan_succ] at hc
    cases hstep : scanStep split w eof with
    | finalToken token =>
      simp only [hstep] at hc
      unfold emitChunk at hc
      by_cases he : token.isEmpty <;> simp [he] at hc
    | emit advance token =>
      simp only [hstep] at hc
      rcases hrc : (runScan split chunkSize fuel (w.drop advance) rest eof).chunks
        with - | ⟨c0, cs0⟩
      · rw [hrc] at hc
        unfold emitChunk at hc
        by_cases he : token.isEmpty <;> simp [he] at hc
      · rw [hrc,
          List.dropLast_append_of_ne_nil (emitChunk chunkSize token)
            (by simp)] at hc
        rcases List.mem_append.mp hc with hc | hc
        · rcases mem_emitChunk hc with ⟨rfl, hne⟩
          exact hemit w eof advance token hw (scanStep_eq_split hstep (by simp)) hne
        · have := ih (w.drop advance) rest eof
            (by simp [List.length_drop]; omega) c
          rw [hrc] at this
          exact this hc
    | more =>
      simp only [hstep] at hc
      by_cases heof : eof
      · simp [heof] at hc
      · simp only [heof, if_false] at hc
        by_cases hfull : chunkSize ≤ w.length
        · simp [hfull] at hc
        · simp only [hfull, if_false] at hc
          by_cases hrest : rest.isEmpty
          · simp only [hrest, if_true] at hc
            exact ih _ _ _ hw _ hc
          · simp only [hrest, if_false] at hc
            refine ih _ _ _ ?_ _ hc
            simp [List.length_take]
            omega

theorem runScan_emit_step {split : List Nat → Bool → SplitResult}
    {chunkSize fuel : Nat} {window rest : List Nat} {eofSeen : Bool}
    {advance : Nat} {token : List Nat}
    (hstep : scanStep split window eofSeen = SplitResult.emit advance token) :
    runScan split chunkSize (fuel + 1) window rest eofSeen =
      ⟨emitChunk chunkSize token ++
          (runScan split chunkSize fuel (window.drop advance) rest eofSeen).chunks,
        (runScan split chunkSize fuel (window.drop advance) rest eofSeen).err⟩ := by
  rw [runScan_succ, hstep]

theorem runScan_final_step {split : List Nat → Bool → SplitResult}
    {chunkSize fuel : Nat} {window rest : List Nat} {eofSeen : Bool}
    {token : List Nat}
    (hstep : scanStep split window eofSeen = SplitResult.finalToken token) :
    runScan split chunkSize (fuel + 1) window rest eofSeen =
      ⟨emitChunk chunkSize token, none⟩ := by
  rw [runScan_succ, hstep]

theorem runScan_more_true_step {split : List Nat → Bool → SplitResult}
    {chunkSize fuel : Nat} {window rest : List Nat}
    (hstep : scanStep split window true = SplitResult.more) :
    runScan split chunkSize (fuel + 1) window rest true = ⟨[], none⟩ := by
  rw [runScan_succ, hstep]
  simp

theorem runScan_more_false_step {split : List Nat → Bool → SplitResult}
    {chunkSize fuel : Nat} {window rest : List Nat}
    (hstep : scanStep split window false = SplitResult.more) :
    runScan split chunkSize (fuel + 1) window rest false =
      if chunkSize ≤ window.length then ⟨[], some ScanError.tooLong⟩
      else if rest.isEmpty then runScan split chunkSize fuel window rest true
      else runScan split chunkSize fuel
        (window ++ rest.take (chunkSize - window.length))
        (rest.drop (chunkSize - window.length)) false := by
  rw [runScan_succ, hstep]
  simp

/-- Completed scans deliver the whole input: when the loop ends cleanly, the
concatenation of the produced chunks, in production order, is exactly the
buffered window followed by the unread input. The hypotheses are facts about
the split function: emitted tokens are the consumed window bytes, the final
token is the whole window, and the split function neither requests more data
at end of input nor produces a final token before it. -/
theorem runScan_flatten (split : List Nat → Bool → SplitResult) (chunkSize : Nat)
    (h1 : ∀ data atEOF advance token,
      split data atEOF = SplitResult.emit advance token →
      token = data.take advance ∧ advance ≤ data.length)
    (h2 : ∀ data token,
      split data true = SplitResult.finalToken token → token = data)
    (h3 : ∀ data, split data true ≠ SplitResult.more)
    (h4 : ∀ data token, split data false ≠ SplitResult.finalToken token) :
    ∀ fuel window rest eofSeen,
      window.length ≤ chunkSize → (eofSeen = true → rest = []) →
      (runScan split chunkSize fuel window rest eofSeen).err = none →
      ((runScan split chunkSize fuel window rest eofSeen).chunks).flatten =
        window ++ rest := by
  intro fuel
  induction fuel with
  | zero =>
    intro w rest eof _ _ herr
    simp [runScan] at herr
  | succ fuel ih =>
    intro w rest eof hw hrest herr
    cases hstep : scanStep split w eof with
    | finalToken token =>
      rw [runScan_final_step hstep]
      have hsp := scanStep_eq_split hstep (by simp)
      cases eof with
      | false => exact absurd hsp (h4 w token)
      | true =>
        have htok : token = w := h2 w token hsp
        have hrest0 : rest = [] := hrest rfl
        subst htok
        subst hrest0
        unfold emitChunk
        by_cases he : token.isEmpty
        · rw [List.isEmpty_iff] at he
          simp [he]
        · rw [if_neg he]
          have hlen : token.length ≤ chunkSize := hw
          simp [List.take_of_length_le hlen]
    | emit advance token =>
      rw [runScan_emit_step hstep] at herr ⊢
      simp only at herr ⊢
      have hsp := scanStep_eq_split hstep (by simp)
      rcases h1 w eof advance token hsp with ⟨htok, hadv⟩
      have hrec := ih (w.drop advance) rest eof
        (by simp [List.length_drop]; omega) hrest herr
      rw [List.flatten_append, hrec]
      subst htok
      unfold emitChunk
      by_cases he : (w.take advance).isEmpty
      · rw [List.isEmpty_iff, List.take_eq_nil_iff] at he
        rcases he with rfl | rfl
        · simp
        · simp
      · have hlen : (w.take advance).length ≤ chunkSize := by
          simp [List.length_take]
          omega
        rw [if_neg he, List.take_of_length_le hlen]
        simp only [List.flatten_cons, List.flatten_nil, List.append_nil]
        rw [← List.append_assoc, List.take_append_drop]
    | more =>
      cases eof with
      | true =>
        rw [scanStep_true] at hstep
        exact absurd hstep (h3 w)
      | false =>
        rw [runScan_more_false_step hstep] at herr ⊢
        by_cases hfull : chunkSize ≤ w.length
        · simp [hfull] at herr
        · rw [if_neg hfull] at herr ⊢
          by_cases hempty : rest.isEmpty
          · rw [if_pos hempty] at herr ⊢
            have : rest = [] := List.isEmpty_iff.mp hempty
            subst this
            exact ih w [] true hw (fun _ => rfl) herr
          · rw [if_neg hempty] at herr ⊢
            have hlen : (w ++ rest.take (chunkSize - w.length)).length ≤ chunkSize := by
              simp [List.length_take]
              omega
            have := ih (w ++ rest.take (chunkSize - w.length))
              (rest.drop (chunkSize - w.length)) false hlen (by simp) herr
            rw [this, List.append_assoc, List.take_append_drop]

theorem scanBoundary_emit {chunkSize : Nat} {boundary data : List Nat}
    {atEOF : Bool} {advance : Nat} {token : List Nat}
    (h : ScanChunksWithBoundary chunkSize boundary data atEOF =
      SplitResult.emit advance token) :
    ∃ idx, lastIndex data boundary = some idx ∧
      advance = idx + boundary.length ∧
      token = data.take (idx + boundary.length) := by
  unfold ScanChunksWithBoundary at h
  by_cases hc : (!atEOF && decide (data.length < chunkSize)) = true
  · rw [if_pos hc] at h
    exact absurd h (by simp)
  · rw [if_neg hc] at h
    cases hl : lastIndex data boundary with
    | some idx =>
      rw [hl] at h
      simp only [SplitResult.emit.injEq] at h
      exact ⟨idx, rfl, h.1.symm, h.2.symm⟩
    | none =>
      rw [hl] at h
      by_cases ha : (!atEOF) = true
      · rw [if_pos ha] at h
        exact absurd h (by simp)
      · rw [if_neg ha] at h
        exact absurd h (by simp)

theorem scanBoundary_final {chunkSize : Nat} {boundary data : List Nat}
    {atEOF : Bool} {token : List Nat}
    (h : ScanChunksWithBoundary chunkSize boundary data atEOF =
      SplitResult.finalToken token) :
    token = data ∧ atEOF = true ∧ lastIndex data boundary = none := by
  unfold ScanChunksWithBoundary at h
  by_cases hc : (!atEOF && decide (data.length < chunkSize)) = true
  · rw [if_pos hc] at h
    exact absurd h (by simp)
  · rw [if_neg hc] at h
    cases hl : lastIndex data boundary with
    | some idx =>
      rw [hl] at h
      exact absurd h (by simp)
    | none =>
      rw [hl] at h
      by_cases ha : (!atEOF) = true
      · rw [if_pos ha] at h
        exact absurd h (by simp)
      · rw [if_neg ha] at h
        simp only [SplitResult.finalToken.injEq] at h
        refine ⟨h.symm, ?_, hl ▸ rfl⟩
        cases atEOF
        · simp at ha
        · rfl

theorem scanBoundary_no_more_at_eof (chunkSize : Nat) (boundary data : List Nat) :
    ScanChunksWithBoundary chunkSize boundary data true ≠ SplitResult.more := by
  unfold ScanChunksWithBoundary
  simp only [Bool.not_true, Bool.false_and, Bool.false_eq_true, if_false]
  cases hl : lastIndex data boundary <;> simp

theorem scanBoundary_no_final_before_eof (chunkSize : Nat)
    (boundary data : List Nat) (token : List Nat) :
    ScanChunksWithBoundary chunkSize boundary data false ≠
      SplitResult.finalToken token := by
  unfold ScanChunksWithBoundary
  by_cases hc : data.length < chunkSize
  · simp [hc]
  · simp only [Bool.not_false, Bool.true_and, decide_eq_true_eq, hc, if_false]
    cases hl : lastIndex data boundary <;> simp

theorem scanBoundary_emit_spec {chunkSize : Nat} {boundary data : List Nat}
    {atEOF : Bool} {advance : Nat} {token : List Nat}
    (h : ScanChunksWithBoundary chunkSize boundary data atEOF =
      SplitResult.emit advance token) :
    token = data.take advance ∧ advance ≤ data.length := by
  rcases scanBoundary_emit h with ⟨idx, hli, rfl, rfl⟩
  refine ⟨rfl, ?_⟩
  rcases lastIndex_some hli with ⟨hocc, hle⟩
  have := listStartsWith_length hocc
  simp [List.length_drop] at this
  omega

/-- C1: in end-only mode, below `ChunkSize` before end of input the scanner
requests more data (advance 0, emit nothing); once the window is at least
`ChunkSize` or input is exhausted, if the last occurrence of the boundary in
the window starts at offset `i`, the scanner emits exactly
`data[0 .. i+len(boundary))` and consumes exactly `i+len(boundary)` bytes. -/
theorem claim_C1_scan_contract (chunkSize : Nat) (boundary data : List Nat)
    (atEOF : Bool) (i : Nat) (hi : i ≤ data.length)
    (hocc : listStartsWith boundary (data.drop i) = true)
    (hlast : ∀ k < data.length + 1, i < k →
      listStartsWith boundary (data.drop k) = false) :
    (atEOF = false → data.length < chunkSize →
      ScanChunksWithBoundary chunkSize boundary data atEOF = SplitResult.more) ∧
    (atEOF = true ∨ chunkSize ≤ data.length →
      ScanChunksWithBoundary chunkSize boundary data atEOF =
        SplitResult.emit (i + boundary.length)
          (data.take (i + boundary.length))) := by
  constructor
  · intro ha hlen
    subst ha
    unfold ScanChunksWithBoundary
    rw [if_pos]
    simp [hlen]
  · intro hor
    have hli : lastIndex data boundary = some i :=
      lastIndexFrom_eq_some data.length i hi hocc
        (fun k hk1 hk2 => hlast k (by omega) hk1)
    unfold ScanChunksWithBoundary
    have hcond : (!atEOF && decide (data.length < chunkSize)) = false := by
      rcases hor with rfl | hc
      · simp
      · simp [Nat.not_lt.mpr hc]
    rw [hcond]
    simp only [Bool.false_eq_true, if_false, hli]

/-- Witness for C1 at concrete inputs: a short window before end of input
requests more data, and at end of input the cut happens at the last newline. -/
theorem claim_C1_witness :
    ScanChunksWithBoundary 8 [10] [97, 98, 10, 99] false = SplitResult.more ∧
    ScanChunksWithBoundary 4 [10] [97, 98, 10, 99] true =
      SplitResult.emit 3 [97, 98, 10] := by
  constructor
  · exact (claim_C1_scan_contract 8 [10] [97, 98, 10, 99] false 2
      (by decide) (by decide) (by decide)).1 rfl (by decide)
  · exact (claim_C1_scan_contract 4 [10] [97, 98, 10, 99] true 2
      (by decide) (by decide) (by decide)).2 (Or.inl rfl)

theorem scanBoundary_emit_ends {chunkSize : Nat} {boundary data : List Nat}
    {atEOF : Bool} {advance : Nat} {token : List Nat}
    (h : ScanChunksWithBoundary chunkSize boundary data atEOF =
      SplitResult.emit advance token)
    (hlen : data.length ≤ chunkSize) :
    listEndsWith boundary (token.take chunkSize) = true := by
  rcases scanBoundary_emit h with ⟨idx, hli, rfl, rfl⟩
  rcases lastIndex_some hli with ⟨hocc, hle⟩
  have hlb := listStartsWith_length hocc
  rw [List.length_drop] at hlb
  have hlen2 : (data.take (idx + boundary.length)).length = idx + boundary.length := by
    simp [List.length_take]
    omega
  rw [List.take_of_length_le (by rw [hlen2]; omega)]
  unfold listEndsWith
  rw [hlen2]
  have h1 : idx + boundary.length - boundary.length = idx := by omega
  rw [h1, List.drop_take]
  have h2 : idx + boundary.length - idx = boundary.length := by omega
  rw [h2]
  rw [listStartsWith_iff] at hocc
  rw [hocc]
  simp

/-- Counterexample to C2 as stated: for the input `"ab\ncdef"` with
`ChunkSize = 3` (smaller than the input), the record `"cdef"` exceeds
`ChunkSize`, so the scan aborts with `bufio.ErrTooLong` after emitting only
`"ab\n"`; the concatenation of the emitted chunks is not the input. -/
theorem claim_C2_counterexample :
    3 < ([97, 98, 10, 99, 100, 101, 102] : List Nat).length ∧
    ((ReadBoundary 3 [10] [97, 98, 10, 99, 100, 101, 102]).chunks).flatten ≠
      [97, 98, 10, 99, 100, 101, 102] := by decide

/-- C2 (amended): in end-only mode with the single-byte boundary `"\n"` and
`ChunkSize` smaller than the input, provided the scan completes without
error, the concatenation of the emitted chunks in emission order equals the
original input exactly, and every emitted chunk except possibly the last
ends with `"\n"`. -/
theorem claim_C2_lines_cover_input (chunkSize : Nat) (input : List Nat)
    (_hcs : chunkSize < input.length)
    (hok : (ReadBoundary chunkSize [10] input).err = none) :
    ((ReadBoundary chunkSize [10] input).chunks).flatten = input ∧
    ∀ c ∈ ((ReadBoundary chunkSize [10] input).chunks).dropLast,
      listEndsWith [10] c = true := by
  unfold ReadBoundary at hok ⊢
  constructor
  · have := runScan_flatten (ScanChunksWithBoundary chunkSize [10]) chunkSize
      (fun data atEOF advance token h => scanBoundary_emit_spec h)
      (fun data token h => (scanBoundary_final h).1)
      (fun data => scanBoundary_no_more_at_eof chunkSize [10] data)
      (fun data token => scanBoundary_no_final_before_eof chunkSize [10] data token)
      (scanFuel input) [] input false (by simp) (by simp) hok
    simpa using this
  · exact runScan_dropLast_prop _ _ _
      (fun data atEOF advance token hlen hsp _ => scanBoundary_emit_ends hsp hlen)
      (scanFuel input) [] input false (by simp)

/-- Witness for C2 (amended) at the spec's own scenario `"abc\ndef\n"` with
`ChunkSize = 6`. -/
theorem claim_C2_witness :
    (6 < ([97, 98, 99, 10, 100, 101, 102, 10] : List Nat).length ∧
      (ReadBoundary 6 [10] [97, 98, 99, 10, 100, 101, 102, 10]).err = none) ∧
    ((ReadBoundary 6 [10] [97, 98, 99, 10, 100, 101, 102, 10]).chunks).flatten =
      [97, 98, 99, 10, 100, 101, 102, 10] ∧
    ∀ c ∈ ((ReadBoundary 6 [10] [97, 98, 99, 10, 100, 101, 102, 10]).chunks).dropLast,
      listEndsWith [10] c = true :=
  ⟨⟨by decide, by decide⟩,
    claim_C2_lines_cover_input 6 [97, 98, 99, 10, 100, 101, 102, 10]
      (by decide) (by decide)⟩

/-- Counterexample to the second half of C3 as stated: for the input
`"aaaa\n"` with `ChunkSize = 3`, whose single record is larger than
`ChunkSize`, `Read` does not emit an oversized chunk; the scanner's buffer
(capped by `Read` at `ChunkSize`) fills without a boundary and the scan
aborts with `bufio.ErrTooLong`, emitting nothing. -/
theorem claim_C3_counterexample :
    ReadBoundary 3 [10] [97, 97, 97, 97, 10] = ⟨[], some ScanError.tooLong⟩ := by
  decide

/-- C3 (amended): when no boundary occurrence exists in the scanned window
and the input is not exhausted, the scanner requests more data instead of
cutting mid-record; but because `Read` caps the scanner's buffer at
`ChunkSize`, no emitted chunk ever exceeds `ChunkSize` — an input whose
records are larger than `ChunkSize` aborts the scan instead. -/
theorem claim_C3_soft_target (chunkSize : Nat) (boundary data input c : List Nat)
    (hnone : lastIndex data boundary = none)
    (hc : c ∈ (ReadBoundary chunkSize boundary input).chunks) :
    ScanChunksWithBoundary chunkSize boundary data false = SplitResult.more ∧
    c.length ≤ chunkSize := by
  constructor
  · unfold ScanChunksWithBoundary
    by_cases hlen : data.length < chunkSize
    · simp [hlen]
    · simp [hlen, hnone]
  · unfold ReadBoundary at hc
    exact runScan_chunk_length _ _ _ _ _ _ _ hc

/-- Witness for C3 (amended): a newline-free window requests more data, and
a concrete emitted chunk respects the `ChunkSize` bound. -/
theorem claim_C3_witness :
    (lastIndex [97, 97, 97] [10] = none ∧
      [97, 98, 10] ∈ (ReadBoundary 3 [10] [97, 98, 10, 99]).chunks) ∧
    ScanChunksWithBoundary 3 [10] [97, 97, 97] false = SplitResult.more ∧
    ([97, 98, 10] : List Nat).length ≤ 3 :=
  ⟨⟨by decide, by decide⟩,
    claim_C3_soft_target 3 [10] [97, 97, 97] [97, 98, 10, 99] [97, 98, 10]
      (by decide) (by decide)⟩

/-- Counterexample to C4 as stated: the spec's own scenario `"abc\ndef\n"`
with `ChunkSize = 65536` yields the single chunk `"abc\ndef\n"`, which
contains the boundary `"\n"` at offset 3 — not at its end (the chunk holds
two complete records). -/
theorem claim_C4_counterexample :
    (ReadBoundary 65536 [10] [97, 98, 99, 10, 100, 101, 102, 10]).chunks =
      [[97, 98, 99, 10, 100, 101, 102, 10]] ∧
    listStartsWith [10]
      (([97, 98, 99, 10, 100, 101, 102, 10] : List Nat).drop 3) = true ∧
    3 + ([10] : List Nat).length ≠
      ([97, 98, 99, 10, 100, 101, 102, 10] : List Nat).length := by decide

/-- C4 (amended): in end-only mode every chunk emitted by `Read`, except
possibly the final one, ends with the boundary sequence; a chunk may contain
further boundary occurrences in its interior (several complete records), but
no chunk is cut mid-record. -/
theorem claim_C4_no_mid_record_cut (chunkSize : Nat) (boundary input c : List Nat)
    (hc : c ∈ ((ReadBoundary chunkSize boundary input).chunks).dropLast) :
    listEndsWith boundary c = true := by
  unfold ReadBoundary at hc
  exact runScan_dropLast_prop (ScanChunksWithBoundary chunkSize boundary)
    chunkSize (fun c => listEndsWith boundary c = true)
    (fun data atEOF advance token hlen hsp _ => scanBoundary_emit_ends hsp hlen)
    (scanFuel input) [] input false (by simp) c hc

/-- Witness for C4 (amended) at the scenario `"abc\ndef\n"`, `ChunkSize = 6`:
the non-final chunk `"abc\n"` ends with the boundary. -/
theorem claim_C4_witness :
    [97, 98, 99, 10] ∈
      ((ReadBoundary 6 [10] [97, 98, 99, 10, 100, 101, 102, 10]).chunks).dropLast ∧
    listEndsWith [10] [97, 98, 99, 10] = true :=
  ⟨by decide,
    claim_C4_no_mid_record_cut 6 [10] [97, 98, 99, 10, 100, 101, 102, 10]
      [97, 98, 99, 10] (by decide)⟩

theorem runFixed_succ (chunkSize fuel : Nat) (remaining : List Nat)
    (term : Terminal) :
    runFixed chunkSize (fuel + 1) remaining term =
      if chunkSize ≤ remaining.length then
        ⟨remaining.take chunkSize ::
            (runFixed chunkSize fuel (remaining.drop chunkSize) term).chunks,
          (runFixed chunkSize fuel (remaining.drop chunkSize) term).err⟩
      else
        match term with
        | Terminal.eof =>
          if remaining.isEmpty then ⟨[], none⟩ else ⟨[remaining], none⟩
        | Terminal.fault => ⟨[], some FixedError.fault⟩ := rfl

theorem runFixed_eof (chunkSize : Nat) (hcs : 0 < chunkSize) :
    ∀ fuel remaining, remaining.length < fuel →
      (runFixed chunkSize fuel remaining Terminal.eof).err = none ∧
      ((runFixed chunkSize fuel remaining Terminal.eof).chunks).flatten = remaining ∧
      (∀ c ∈ ((runFixed chunkSize fuel remaining Terminal.eof).chunks).dropLast,
        c.length = chunkSize) ∧
      (∀ c ∈ (runFixed chunkSize fuel remaining Terminal.eof).chunks,
        0 < c.length ∧ c.length ≤ chunkSize) := by
  intro fuel
  induction fuel with
  | zero =>
    intro r hr
    omega
  | succ fuel ih =>
    intro r hr
    rw [runFixed_succ]
    by_cases hfull : chunkSize ≤ r.length
    · have hrec := ih (r.drop chunkSize) (by simp [List.length_drop]; omega)
      rw [if_pos hfull]
      have htl : (r.take chunkSize).length = chunkSize := by
        simp [List.length_take]
        omega
      refine ⟨hrec.1, ?_, ?_, ?_⟩
      · simp only [List.flatten_cons, hrec.2.1, List.take_append_drop]
      · intro c hc
        rcases hl : (runFixed chunkSize fuel (r.drop chunkSize) Terminal.eof).chunks
          with - | ⟨c0, cs0⟩
        · rw [hl] at hc
          simp at hc
        · rw [hl] at hc
          rw [show (r.take chunkSize :: (c0 :: cs0)).dropLast =
            r.take chunkSize :: (c0 :: cs0).dropLast from rfl] at hc
          rcases List.mem_cons.mp hc with rfl | hc
          · exact htl
          · have := hrec.2.2.1 c
            rw [hl] at this
            exact this hc
      · intro c hc
        rcases List.mem_cons.mp hc with rfl | hc
        · rw [htl]
          exact ⟨hcs, Nat.le_refl _⟩
        · exact hrec.2.2.2 c hc
    · rw [if_neg hfull]
      by_cases he : r.isEmpty
      · have : r = [] := List.isEmpty_iff.mp he
        subst this
        simp [he]
      · have hne : r ≠ [] := by
          rw [List.isEmpty_iff] at he
          exact he
        rw [Bool.eq_false_iff.mpr he]
        refine ⟨rfl, by simp, by simp, ?_⟩
        intro c hc
        rcases List.mem_cons.mp hc with rfl | hc
        · exact ⟨List.length_pos.mpr hne, by omega⟩
        · simp at hc

theorem runFixed_fault (chunkSize : Nat) (hcs : 0 < chunkSize) :
    ∀ fuel remaining, remaining.length < fuel →
      (runFixed chunkSize fuel remaining Terminal.fault).err =
        some FixedError.fault := by
  intro fuel
  induction fuel with
  | zero =>
    intro r hr
    omega
  | succ fuel ih =>
    intro r hr
    rw [runFixed_succ]
    by_cases hfull : chunkSize ≤ r.length
    · rw [if_pos hfull]
      exact ih (r.drop chunkSize) (by simp [List.length_drop]; omega)
    · rw [if_neg hfull]

theorem runFixed_chunks_ne_nil (chunkSize : Nat) (hcs : 0 < chunkSize) :
    ∀ fuel remaining term c,
      c ∈ (runFixed chunkSize fuel remaining term).chunks → c ≠ [] := by
  intro fuel
  induction fuel with
  | zero =>
    intro r term c hc
    simp [runFixed] at hc
  | succ fuel ih =>
    intro r term c hc
    rw [runFixed_succ] at hc
    by_cases hfull : chunkSize ≤ r.length
    · rw [if_pos hfull] at hc
      rcases List.mem_cons.mp hc with rfl | hc
      · rw [Ne, List.take_eq_nil_iff]
        push_neg
        constructor
        · omega
        · intro h
          rw [h] at hfull
          simp at hfull
          omega
      · exact ih _ _ _ hc
    · rw [if_neg hfull] at hc
      cases term with
      | eof =>
        by_cases he : r.isEmpty
        · simp [he] at hc
        · simp only [he, Bool.false_eq_true, if_false] at hc
          rcases List.mem_cons.mp hc with rfl | hc
          · rw [List.isEmpty_iff] at he
            exact he
          · simp at hc
      | fault => simp at hc

/-- C5: `ReadFixed` fills buffers of exactly `ChunkSize` bytes; a short final
read of `n` bytes (`0 < n < ChunkSize`) at end of stream is emitted as the
last chunk of length `n` (every chunk before the last has length exactly
`ChunkSize`, every chunk is non-empty and at most `ChunkSize`, and the chunks
concatenate to the input); a clean end of stream with zero bytes produces no
chunk; any other read fault is fatal. -/
theorem claim_C5_fixed_chunks (chunkSize : Nat) (input : List Nat)
    (hcs : 0 < chunkSize) :
    (ReadFixedModel chunkSize input Terminal.eof).err = none ∧
    ((ReadFixedModel chunkSize input Terminal.eof).chunks).flatten = input ∧
    (∀ c ∈ ((ReadFixedModel chunkSize input Terminal.eof).chunks).dropLast,
      c.length = chunkSize) ∧
    (∀ c ∈ (ReadFixedModel chunkSize input Terminal.eof).chunks,
      0 < c.length ∧ c.length ≤ chunkSize) ∧
    (ReadFixedModel chunkSize [] Terminal.eof).chunks = [] ∧
    (ReadFixedModel chunkSize input Terminal.fault).err = some FixedError.fault := by
  have h1 := runFixed_eof chunkSize hcs (input.length + 1) input (by omega)
  have h2 := runFixed_fault chunkSize hcs (input.length + 1) input (by omega)
  refine ⟨h1.1, h1.2.1, h1.2.2.1, h1.2.2.2, ?_, h2⟩
  have hnle : ¬ chunkSize ≤ ([] : List Nat).length := by
    simp
    omega
  unfold ReadFixedModel
  rw [show (([] : List Nat).length + 1) = 0 + 1 from rfl, runFixed_succ,
    if_neg hnle]
  rfl

/-- Witness for C5 at `ChunkSize = 3` over a 7-byte input: two full chunks
and one short final chunk, and a faulting source aborts. -/
theorem claim_C5_witness :
    0 < 3 ∧
    (ReadFixedModel 3 [1, 2, 3, 4, 5, 6, 7] Terminal.eof).err = none ∧
    ((ReadFixedModel 3 [1, 2, 3, 4, 5, 6, 7] Terminal.eof).chunks).flatten =
      [1, 2, 3, 4, 5, 6, 7] ∧
    (ReadFixedModel 3 [1, 2, 3, 4, 5, 6, 7] Terminal.fault).err =
      some FixedError.fault :=
  ⟨by decide,
    (claim_C5_fixed_chunks 3 [1, 2, 3, 4, 5, 6, 7] (by decide)).1,
    (claim_C5_fixed_chunks 3 [1, 2, 3, 4, 5, 6, 7] (by decide)).2.1,
    (claim_C5_fixed_chunks 3 [1, 2, 3, 4, 5, 6, 7] (by decide)).2.2.2.2.2⟩

/-- C8: `Pool.Borrow` never blocks and never fails — it returns the oldest
pooled buffer when one is available and otherwise allocates a fresh buffer
of the pool's buffer length, which `Read`/`ReadFixed` set to `ChunkSize`;
`Pool.Return` never blocks and never fails — it stores the buffer when the
pool holds fewer than its capacity (`Concurrency`, as `Read`/`ReadFixed`
construct it) and silently drops it otherwise. -/
theorem claim_C8_pool_contract (p : Pool) (r : ParallelReader)
    (c b : List Nat) (rest : List (List Nat)) (max bufSize : Nat) :
    (p.queue = [] → p.Borrow = (List.replicate p.bufferSize 0, p)) ∧
    (p.queue = b :: rest → p.Borrow = (b, { p with queue := rest })) ∧
    (p.queue.length < p.capacity → (p.Return c).queue = p.queue ++ [c]) ∧
    (p.capacity ≤ p.queue.length → p.Return c = p) ∧
    ((NewPool max bufSize).Borrow.1.length = bufSize ∧
      (readPool r).bufferSize = r.ChunkSize ∧
      (readPool r).capacity = r.Concurrency) := by
  refine ⟨?_, ?_, ?_, ?_, ?_, ?_, ?_⟩
  · intro h
    simp [Pool.Borrow, h]
  · intro h
    simp [Pool.Borrow, h]
  · intro h
    simp [Pool.Return, h]
  · intro h
    simp [Pool.Return, Nat.not_lt.mpr h]
  · simp [NewPool, Pool.Borrow]
  · simp [readPool, NewPool]
  · simp [readPool, NewPool]

/-- Witness for C8 on concrete pools: borrow from an empty pool allocates a
fresh zeroed buffer, borrow from a stocked pool takes the oldest buffer,
return below capacity stores, and return at capacity drops. -/
theorem claim_C8_witness :
    Pool.Borrow ⟨[], 2, 3⟩ = ([0, 0, 0], ⟨[], 2, 3⟩) ∧
    Pool.Borrow ⟨[[5]], 2, 3⟩ = ([5], ⟨[], 2, 3⟩) ∧
    (Pool.Return ⟨[], 2, 3⟩ [7]).queue = [[7]] ∧
    Pool.Return ⟨[[5], [6]], 2, 3⟩ [7] = ⟨[[5], [6]], 2, 3⟩ :=
  ⟨(claim_C8_pool_contract ⟨[], 2, 3⟩ (NewParallelReader 1) [7] [5] [] 0 0).1 rfl,
    (claim_C8_pool_contract ⟨[[5]], 2, 3⟩ (NewParallelReader 1) [7] [5] [] 0 0).2.1 rfl,
    (claim_C8_pool_contract ⟨[], 2, 3⟩ (NewParallelReader 1) [7] [5] [] 0 0).2.2.1
      (by decide),
    (claim_C8_pool_contract ⟨[[5], [6]], 2, 3⟩ (NewParallelReader 1) [7] [5] [] 0 0).2.2.2.1
      (by decide)⟩

/-- C9: evaluation of the code at the failing configuration. The pending
chunk channel is created once, in `NewParallelReader`, with the
construction-time `Concurrency` (the CPU count); `Read`/`ReadFixed` never
remake it, so after `r.Concurrency = 10` on a reader constructed with 4 CPUs
the queue capacity at the moment `Read` is invoked is still 4, not the
configured 10 the claim asserts. -/
theorem claim_C9_queue_capacity_eval :
    readQueueCapacity (NewParallelReader 4) = (NewParallelReader 4).Concurrency ∧
    (withConcurrency (NewParallelReader 4) 10).Concurrency = 10 ∧
    readQueueCapacity (withConcurrency (NewParallelReader 4) 10) = 4 := by
  decide

/-- C10: the callback is never invoked with a zero-length chunk — `Read`
filters out empty scanner tokens before enqueueing, and `ReadFixed` (with a
positive `ChunkSize`) only enqueues a chunk when at least one byte was
read. -/
theorem claim_C10_no_empty_chunks :
    (∀ chunkSize boundary input c,
      c ∈ (ReadBoundary chunkSize boundary input).chunks → c ≠ []) ∧
    (∀ chunkSize input term c, 0 < chunkSize →
      c ∈ (ReadFixedModel chunkSize input term).chunks → c ≠ []) := by
  constructor
  · intro chunkSize boundary input c hc
    unfold ReadBoundary at hc
    refine runScan_chunks_prop (ScanChunksWithBoundary chunkSize boundary)
      chunkSize (fun c => c ≠ []) ?_ ?_ (scanFuel input) [] input false
      (by simp) c hc
    · intro data atEOF advance token hlen hsp hne
      rcases scanBoundary_emit hsp with ⟨idx, hli, rfl, rfl⟩
      rw [Bool.eq_false_iff, Ne, List.isEmpty_iff, List.take_eq_nil_iff] at hne
      push_neg at hne
      have hdata : data ≠ [] := hne.2
      have hpos : 0 < chunkSize := by
        have := List.length_pos.mpr hdata
        omega
      rw [Ne, List.take_eq_nil_iff, List.take_eq_nil_iff]
      push_neg
      exact ⟨by omega, hne⟩
    · intro data atEOF token hlen hsp hne
      rcases scanBoundary_final hsp with ⟨rfl, -, -⟩
      rw [Bool.eq_false_iff, Ne, List.isEmpty_iff] at hne
      have hpos : 0 < chunkSize := by
        have := List.length_pos.mpr hne
        omega
      rw [Ne, List.take_eq_nil_iff]
      push_neg
      exact ⟨by omega, hne⟩
  · intro chunkSize input term c hcs hc
    exact runFixed_chunks_ne_nil chunkSize hcs (input.length + 1) input term c hc

/-- Witness for C10: a concrete emitted chunk of each mode is non-empty. -/
theorem claim_C10_witness :
    ([97, 10] ∈ (ReadBoundary 6 [10] [97, 10]).chunks ∧
      0 < 1 ∧ [97] ∈ (ReadFixedModel 1 [97] Terminal.eof).chunks) ∧
    ([97, 10] ≠ ([] : List Nat) ∧ [97] ≠ ([] : List Nat)) :=
  ⟨⟨by decide, by decide, by decide⟩,
    claim_C10_no_empty_chunks.1 6 [10] [97, 10] [97, 10] (by decide),
    claim_C10_no_empty_chunks.2 1 [97] Terminal.eof [97] (by decide) (by decide)⟩

/-- C6: on `"abcdefg|SPLIT|hijklmnop|SPLIT|hello"` with boundary
`"|SPLIT|"`, `Read` without a boundary requirement emits exactly the two
chunks `"abcdefg|SPLIT|hijklmnop|SPLIT|"` and `"hello"` (`ChunkSize` 64 KiB,
as the repository's test), and with `RequireBoundary` set emits exactly the
one chunk `"abcdefg|SPLIT|hijklmnop|SPLIT|"`, discarding the unterminated
trailing fragment (`ChunkSize` 100, as the repository's test). -/
theorem claim_C6_require_boundary :
    ReadBoundary 65536 splitBoundaryBytes c6Input =
      ⟨[c6FirstChunk, [104, 101, 108, 108, 111]], none⟩ ∧
    ReadBoundaryReq 100 splitBoundaryBytes c6Input =
      ⟨[c6FirstChunk], none⟩ := by
  constructor
  · decide
  · decide

theorem scanBracketed_emit {chunkSize : Nat} {startBnd endBnd data : List Nat}
    {atEOF : Bool} {advance : Nat} {token : List Nat}
    (h : scanChunksBracketed chunkSize startBnd endBnd data atEOF =
      SplitResult.emit advance token) :
    ∃ s0 e0, firstIndexFrom data startBnd 0 = some s0 ∧
      firstIndexFrom data endBnd (s0 + startBnd.length) = some e0 ∧
      advance = e0 + endBnd.length ∧
      token = (data.take (e0 + endBnd.length)).drop s0 := by
  unfold scanChunksBracketed at h
  by_cases hc : (!atEOF && decide (data.length < chunkSize)) = true
  · rw [if_pos hc] at h
    exact absurd h (by simp)
  · rw [if_neg hc] at h
    cases hs : firstIndexFrom data startBnd 0 with
    | none =>
      rw [hs] at h
      by_cases ha : (!atEOF) = true
      · rw [if_pos ha] at h
        exact absurd h (by simp)
      · rw [if_neg ha] at h
        exact absurd h (by simp)
    | some s0 =>
      rw [hs] at h
      dsimp only at h
      cases he : firstIndexFrom data endBnd (s0 + startBnd.length) with
      | none =>
        rw [he] at h
        by_cases ha : (!atEOF) = true
        · rw [if_pos ha] at h
          exact absurd h (by simp)
        · rw [if_neg ha] at h
          exact absurd h (by simp)
      | some e0 =>
        rw [he] at h
        simp only [SplitResult.emit.injEq] at h
        exact ⟨s0, e0, rfl, he, h.1.symm, h.2.symm⟩

theorem scanBracketed_final {chunkSize : Nat} {startBnd endBnd data : List Nat}
    {atEOF : Bool} {token : List Nat}
    (h : scanChunksBracketed chunkSize startBnd endBnd data atEOF =
      SplitResult.finalToken token) :
    token = [] := by
  unfold scanChunksBracketed at h
  by_cases hc : (!atEOF && decide (data.length < chunkSize)) = true
  · rw [if_pos hc] at h
    exact absurd h (by simp)
  · rw [if_neg hc] at h
    cases hs : firstIndexFrom data startBnd 0 with
    | none =>
      rw [hs] at h
      by_cases ha : (!atEOF) = true
      · rw [if_pos ha] at h
        exact absurd h (by simp)
      · rw [if_neg ha] at h
        simp only [SplitResult.finalToken.injEq] at h
        exact h.symm
    | some s0 =>
      rw [hs] at h
      dsimp only at h
      cases he : firstIndexFrom data endBnd (s0 + startBnd.length) with
      | none =>
        rw [he] at h
        by_cases ha : (!atEOF) = true
        · rw [if_pos ha] at h
          exact absurd h (by simp)
        · rw [if_neg ha] at h
          simp only [SplitResult.finalToken.injEq] at h
          exact h.symm
      | some e0 =>
        rw [he] at h
        exact absurd h (by simp)

theorem bracketToken_props {chunkSize : Nat} {startBnd endBnd data : List Nat}
    {s0 e0 : Nat} (hlen : data.length ≤ chunkSize)
    (hs0 : firstIndexFrom data startBnd 0 = some s0)
    (he0 : firstIndexFrom data endBnd (s0 + startBnd.length) = some e0) :
    listStartsWith startBnd
      (((data.take (e0 + endBnd.length)).drop s0).take chunkSize) = true ∧
    listEndsWith endBnd
      (((data.take (e0 + endBnd.length)).drop s0).take chunkSize) = true := by
  rcases firstIndexFrom_some hs0 with ⟨-, hS, hs0len⟩
  rcases firstIndexFrom_some he0 with ⟨hse, hE, he0len⟩
  have hsl := listStartsWith_length hS
  rw [List.length_drop] at hsl
  have hel := listStartsWith_length hE
  rw [List.length_drop] at hel
  have hEB : e0 + endBnd.length ≤ data.length := by omega
  have htoklen : ((data.take (e0 + endBnd.length)).drop s0).length =
      e0 + endBnd.length - s0 := by
    rw [List.length_drop, List.length_take]
    omega
  rw [List.take_of_length_le (by rw [htoklen]; omega)]
  constructor
  · rw [listStartsWith_iff, List.drop_take, List.take_take]
    have hmin : min startBnd.length (e0 + endBnd.length - s0) =
        startBnd.length := by omega
    rw [hmin]
    rw [listStartsWith_iff] at hS
    exact hS
  · unfold listEndsWith
    rw [htoklen]
    have h1 : e0 + endBnd.length - s0 - endBnd.length = e0 - s0 := by omega
    rw [h1, List.drop_drop]
    have h2 : s0 + (e0 - s0) = e0 := by omega
    rw [h2, List.drop_take]
    have h3 : e0 + endBnd.length - e0 = endBnd.length := by omega
    rw [h3]
    rw [listStartsWith_iff] at hE
    rw [hE]
    simp

/-- C7: in bracketed mode every chunk delivered to the callback is a complete
`start…end` span — it begins with the start sequence and ends with the end
sequence, so bytes outside a complete span are never delivered — and on
`"abcdefg<FOO>hijklmnop</FOO>hello"` with markers `"<FOO>"`/`"</FOO>"`
(`ChunkSize` 100, as the repository's test) exactly the one chunk
`"<FOO>hijklmnop</FOO>"` is emitted. -/
theorem claim_C7_bracketed :
    (∀ chunkSize startBnd endBnd input c,
      c ∈ (ReadBracketed chunkSize startBnd endBnd input).chunks →
      listStartsWith startBnd c = true ∧ listEndsWith endBnd c = true) ∧
    ReadBracketed 100 fooStartBytes fooEndBytes c7Input =
      ⟨[c7Chunk], none⟩ := by
  constructor
  · intro chunkSize startBnd endBnd input c hc
    unfold ReadBracketed at hc
    refine runScan_chunks_prop (scanChunksBracketed chunkSize startBnd endBnd)
      chunkSize
      (fun c => listStartsWith startBnd c = true ∧ listEndsWith endBnd c = true)
      ?_ ?_ (scanFuel input) [] input false (by simp) c hc
    · intro data atEOF advance token hlen hsp _
      rcases scanBracketed_emit hsp with ⟨s0, e0, hs0, he0, rfl, rfl⟩
      exact bracketToken_props hlen hs0 he0
    · intro data atEOF token _ hsp hne
      rw [scanBracketed_final hsp] at hne
      simp at hne
  · decide

/-- Witness for C7 at the scenario: the emitted chunk `"<FOO>hijklmnop</FOO>"`
begins with `"<FOO>"` and ends with `"</FOO>"`. -/
theorem claim_C7_witness :
    c7Chunk ∈ (ReadBracketed 100 fooStartBytes fooEndBytes c7Input).chunks ∧
    listStartsWith fooStartBytes c7Chunk = true ∧
    listEndsWith fooEndBytes c7Chunk = true :=
  ⟨by decide,
    claim_C7_bracketed.1 100 fooStartBytes fooEndBytes c7Input c7Chunk
      (by decide)⟩

end Rip
